import Mathlib

/-!
# Verification of the serial_com_rust framing stack

Shallow embedding of the repository's core modules and proofs about them:

* `src/cobs.rs` — in-place COBS byte stuffing on a wrapping `ArrayDeque`
  (`cobs_encode` / `cobs_decode`);
* `src/crc.rs` — CRC-16/DNP over the first `msg_len` logical bytes of the
  buffer (`compute_crc` / `compute_crc_bytes`);
* `src/binarycom/mod.rs` — the unversioned frame codec
  (`send_message` / `receive_message`);
* `src/binarycom.rs` — the versioned frame codec
  (`send_message_v` / `receive_message_v` below);
* `src/binarycom/packers.rs` — register payload packers/unpackers and
  `unpack_stream`;
* `src/binarycom/hostreceiver.rs` — `message_router`.

The buffer is modelled as the logical byte sequence of the deque
(`Buf := List Nat`, entries are `u8` values).  The deque's two physical
slices are always digested in logical order, so the seam is invisible to
every algorithm here except for the one out-of-bounds slice access noted at
`compute_crc`.  Rust aborts (arithmetic underflow in debug builds,
out-of-range slice indexing, `unimplemented!`) are modelled by the
`Outcome.crash` constructor, in contrast with typed `SerialComError`
returns, which are modelled by `Outcome.err`.
-/

/-- Error type of `src/error.rs` (`SerialComError`).  The `TryFromInt`
payload is dropped; mpsc send errors cannot occur in the pure model. -/
inductive SerialComError where
  | QueueTooFull
  | QueueIndexingError
  | COBSDecodeNoCommaFound
  | COBSTooLittleData
  | SliceTooSmall
  | SliceTooBig
  | CRCMismatch
  | TryFromInt
deriving DecidableEq, Repr

/-- Result of a fallible Rust call: `ok` models `Ok`, `err` models a typed
`Err(SerialComError)`, and `crash` models a process abort (debug-mode
integer underflow, out-of-bounds indexing, or an `unimplemented!` macro). -/
inductive Outcome (α : Type) where
  | ok : α → Outcome α
  | err : SerialComError → Outcome α
  | crash : Outcome α
deriving DecidableEq, Repr

/-- `Outcome.isOk` is true exactly on `ok` results. -/
def Outcome.isOk {α : Type} : Outcome α → Bool
  | .ok _ => true
  | _ => false

/-- The logical content of an `arraydeque::ArrayDeque<[u8; N], Wrapping>`,
front first. -/
abbrev Buf := List Nat

/-- `push_back` on a wrapping deque of capacity `cap`: when full, the oldest
(front) element is evicted. -/
def pushBack (cap : Nat) (q : Buf) (x : Nat) : Buf :=
  if q.length = cap then q.tail ++ [x] else q ++ [x]

/-- `push_front` on a wrapping deque of capacity `cap`: when full, the back
element is evicted. -/
def pushFront (cap : Nat) (q : Buf) (x : Nat) : Buf :=
  if q.length = cap then x :: q.dropLast else x :: q

/-- One shift step of the reflected CRC-16/DNP computation
(reflected polynomial `0xA6BC`, the bit reversal of `0x3D65`). -/
def crc16dnp_round (c : Nat) : Nat :=
  if c % 2 = 1 then (c / 2) ^^^ 0xA6BC else c / 2

/-- Digest one byte into a running CRC-16/DNP value (crc_any's
`CRC::crc16dnp().digest`); the `% 256` embeds the `u8` byte domain. -/
def crc16dnp_byte (c b : Nat) : Nat :=
  crc16dnp_round^[8] (c ^^^ b % 256)

/-- CRC-16/DNP of a byte sequence: init `0x0000`, reflected in/out,
final xor `0xFFFF`.  This is the value `crc16.get_crc()` returns after
digesting `msg` in `src/crc.rs` and `src/binarycom.rs`. -/
def crc16dnp (msg : List Nat) : Nat :=
  (msg.foldl crc16dnp_byte 0) ^^^ 0xFFFF

/-- `CRCExt::compute_crc` (src/crc.rs): digest the first `msgLen` logical
bytes, taken across the deque's two physical slices in order.  When
`msgLen` exceeds the content length, the Rust code slices
`slice2[0..(msg_len - slice1_len)]` out of range and aborts. -/
def compute_crc (q : Buf) (msgLen : Nat) : Outcome Nat :=
  if msgLen ≤ q.length then .ok (crc16dnp (q.take msgLen)) else .crash

/-- `CRCExt::compute_crc_bytes` (src/crc.rs): the CRC split into its
big-endian byte pair `(crc >> 8 & 0xFF, crc & 0xFF)`. -/
def compute_crc_bytes (q : Buf) (msgLen : Nat) : Outcome (Nat × Nat) :=
  match compute_crc q msgLen with
  | .ok c => .ok ((c >>> 8) &&& 255, c &&& 255)
  | .err e => .err e
  | .crash => .crash

/-- The rewrite loop of `cobs_encode` (src/cobs.rs): for `i` in
`1..qlen`, each zero byte found at `i` overwrites the previous zero
position `iLast` with the distance `i - iLast` (checked by
`u8::try_from`).  `fuel` only drives structural recursion; the call site
passes `qlen`, which the loop can never exhaust since `i` grows by one per
step starting from 1. -/
def cobs_encode_go : Nat → Nat → Nat → Nat → Buf → Outcome Unit × Buf
  | 0, _, _, _, q => (.ok (), q)
  | fuel + 1, qlen, iLast, i, q =>
    if i < qlen then
      match q[i]? with
      | some 0 =>
        if iLast < q.length then
          if i - iLast < 256 then
            cobs_encode_go fuel qlen i (i + 1) (q.set iLast (i - iLast))
          else (.err .TryFromInt, q)
        else (.err .QueueIndexingError, q)
      | _ => cobs_encode_go fuel qlen iLast (i + 1) q
    else (.ok (), q)

/-- `COBSExt::cobs_encode` (src/cobs.rs): reject an empty or full buffer,
prepend the zero overhead byte, reject if now full (note: after the
mutation), append the zero comma byte, then run the rewrite loop.
Returns the new queue length. -/
def cobs_encode (cap : Nat) (q : Buf) : Outcome Nat × Buf :=
  if q.length = 0 then (.err .COBSTooLittleData, q)
  else if q.length = cap then (.err .QueueTooFull, q)
  else
    let q1 := pushFront cap q 0
    if q1.length = cap then (.err .QueueTooFull, q1)
    else
      let q2 := pushBack cap q1 0
      match cobs_encode_go q2.length q2.length 0 1 q2 with
      | (.ok _, q3) => (.ok q3.length, q3)
      | (.err e, q3) => (.err e, q3)
      | (.crash, q3) => (.crash, q3)

/-- The offset-chain walk of `cobs_decode` (src/cobs.rs): starting from the
overhead byte at `iz = 0`, stop at a true zero (the comma), otherwise jump
forward by the stored offset and zero the visited position.  `none` models
`comma_found == false` (the walk left the captured `q_len`).  `fuel` only
drives structural recursion; the call site passes `q.length`, which cannot
be exhausted before the walk leaves the buffer since `iz` grows by at least
one per step. -/
def cobs_decode_go : Nat → Buf → Nat → Option Nat × Buf
  | 0, q, _ => (none, q)
  | fuel + 1, q, iz =>
    match q[iz]? with
    | none => (none, q)
    | some v =>
      if v = 0 then (some iz, q)
      else cobs_decode_go fuel (q.set iz 0) (iz + v)

/-- `COBSExt::cobs_decode` (src/cobs.rs): reject fewer than 3 bytes, walk
the offset chain, error if no comma byte was found, pop the overhead byte
off the front and return `i_zero - 1`.  When the walk stops at `i_zero = 0`
the `usize` subtraction underflows: a debug-build abort, modelled by
`crash`. -/
def cobs_decode (q : Buf) : Outcome Nat × Buf :=
  if q.length < 3 then (.err .COBSTooLittleData, q)
  else
    match cobs_decode_go q.length q 0 with
    | (none, q1) => (.err .COBSDecodeNoCommaFound, q1)
    | (some iz, q1) =>
      if iz = 0 then (.crash, q1.tail)
      else (.ok (iz - 1), q1.tail)

/-- The `for i in 0..data_size` pop loop of `receive_message`: each
iteration pops the buffer front (`QueueIndexingError` when exhausted) and
stores it at `data[i]`; an out-of-range store is a Rust index abort. -/
def pop_into : Nat → Nat → Buf → List Nat → Outcome Unit × Buf × List Nat
  | 0, _, q, d => (.ok (), q, d)
  | n + 1, i, q, d =>
    match q.head? with
    | none => (.err .QueueIndexingError, q, d)
    | some x =>
      if i < d.length then pop_into n (i + 1) q.tail (d.set i x)
      else (.crash, q.tail, d)

/-- `BinaryCom::send_message` of the unversioned codec
(src/binarycom/mod.rs, per-capacity impls for 16 and 64 written here once
with `cap` standing for the inlined constant): reject
`data.len() > cap - 5`, clear the buffer, push `command` and the payload,
append the CRC byte pair over everything written, COBS-encode in place and
return the final length. -/
def send_message (cap : Nat) (q0 : Buf) (command : Nat) (data : List Nat) :
    Outcome Nat × Buf :=
  if data.length > cap - 5 then (.err .SliceTooBig, q0)
  else
    let q := data.foldl (pushBack cap) (pushBack cap [] command)
    match compute_crc_bytes q q.length with
    | .ok (ch, cl) =>
      let q2 := pushBack cap (pushBack cap q ch) cl
      match cobs_encode cap q2 with
      | (.ok _, q3) => (.ok q3.length, q3)
      | (.err e, q3) => (.err e, q3)
      | (.crash, q3) => (.crash, q3)
    | .err e => (.err e, q)
    | .crash => (.crash, q)

/-- Result of the unversioned `receive_message`: the returned
`SerialComResult<usize>`, the buffer after the call, and the two
out-parameters (`command`, `data`). -/
structure RecvResult where
  res : Outcome Nat
  buf : Buf
  command : Nat
  data : List Nat
deriving DecidableEq, Repr

/-- `BinaryCom::receive_message` of the unversioned codec
(src/binarycom/mod.rs): reject a too-small output slice, COBS-decode,
compute `msg_size = msg_chk_size - 2` and `data_size = msg_size - 1`
(each an unchecked `usize` subtraction, an abort when it underflows),
recompute the CRC bytes over `msg_size` bytes, pop `command`, the payload
and the two received CRC bytes, and compare the CRC byte-wise. -/
def receive_message (cap : Nat) (q0 : Buf) (command0 : Nat) (data0 : List Nat) :
    RecvResult :=
  if data0.length < cap - 5 then ⟨.err .SliceTooSmall, q0, command0, data0⟩
  else
    match cobs_decode q0 with
    | (.err e, q1) => ⟨.err e, q1, command0, data0⟩
    | (.crash, q1) => ⟨.crash, q1, command0, data0⟩
    | (.ok msgChkSize, q1) =>
      if msgChkSize < 2 then ⟨.crash, q1, command0, data0⟩
      else
        let msgSize := msgChkSize - 2
        if msgSize < 1 then ⟨.crash, q1, command0, data0⟩
        else
          let dataSize := msgSize - 1
          match compute_crc_bytes q1 msgSize with
          | .err e => ⟨.err e, q1, command0, data0⟩
          | .crash => ⟨.crash, q1, command0, data0⟩
          | .ok (ch, cl) =>
            match q1.head? with
            | none => ⟨.err .QueueIndexingError, q1, command0, data0⟩
            | some cmd =>
              match pop_into dataSize 0 q1.tail data0 with
              | (.err e, q2, data1) => ⟨.err e, q2, cmd, data1⟩
              | (.crash, q2, data1) => ⟨.crash, q2, cmd, data1⟩
              | (.ok _, q2, data1) =>
                match q2.head? with
                | none => ⟨.err .QueueIndexingError, q2, cmd, data1⟩
                | some rh =>
                  match q2.tail.head? with
                  | none => ⟨.err .QueueIndexingError, q2.tail, cmd, data1⟩
                  | some rl =>
                    if ch ≠ rh then ⟨.err .CRCMismatch, q2.tail.tail, cmd, data1⟩
                    else if cl ≠ rl then ⟨.err .CRCMismatch, q2.tail.tail, cmd, data1⟩
                    else ⟨.ok dataSize, q2.tail.tail, cmd, data1⟩

/-- `BinaryCom::send_message` of the versioned codec (src/binarycom.rs):
reject `data.len() > cap - 6`, clear, push `version`, `command` and the
payload, digest both deque slices fully (the whole message) into the CRC,
push its two big-endian bytes, COBS-encode and return the final length. -/
def send_message_v (cap : Nat) (q0 : Buf) (version command : Nat)
    (data : List Nat) : Outcome Nat × Buf :=
  if data.length > cap - 6 then (.err .SliceTooBig, q0)
  else
    let q := data.foldl (pushBack cap) (pushBack cap (pushBack cap [] version) command)
    let crcNum := crc16dnp q
    let q2 := pushBack cap (pushBack cap q ((crcNum >>> 8) &&& 255)) (crcNum &&& 255)
    match cobs_encode cap q2 with
    | (.ok _, q3) => (.ok q3.length, q3)
    | (.err e, q3) => (.err e, q3)
    | (.crash, q3) => (.crash, q3)

/-- Result of the versioned `receive_message`: the returned result, the
buffer after the call, and the three out-parameters. -/
structure RecvResultV where
  res : Outcome Nat
  buf : Buf
  version : Nat
  command : Nat
  data : List Nat
deriving DecidableEq, Repr

/-- `BinaryCom::receive_message` of the versioned codec (src/binarycom.rs):
reject a too-small output slice (`cap - 4`), COBS-decode, compute
`msg_size = msg_chk_size - 2` and `data_size = msg_size - 2` (unchecked
subtractions), recompute the CRC over `msg_size` bytes, pop `version`,
`command`, the payload and the two received CRC bytes, then compare
`crc_num` against `(crc_rec_high_byte << 8) & crc_rec_low_byte` — the
reassembly the source really performs, with `&` where `|` would combine
the bytes. -/
def receive_message_v (cap : Nat) (q0 : Buf) (version0 command0 : Nat)
    (data0 : List Nat) : RecvResultV :=
  if data0.length < cap - 4 then ⟨.err .SliceTooSmall, q0, version0, command0, data0⟩
  else
    match cobs_decode q0 with
    | (.err e, q1) => ⟨.err e, q1, version0, command0, data0⟩
    | (.crash, q1) => ⟨.crash, q1, version0, command0, data0⟩
    | (.ok msgChkSize, q1) =>
      if msgChkSize < 2 then ⟨.crash, q1, version0, command0, data0⟩
      else
        let msgSize := msgChkSize - 2
        if msgSize < 2 then ⟨.crash, q1, version0, command0, data0⟩
        else
          let dataSize := msgSize - 2
          match compute_crc q1 msgSize with
          | .err e => ⟨.err e, q1, version0, command0, data0⟩
          | .crash => ⟨.crash, q1, version0, command0, data0⟩
          | .ok crcNum =>
            match q1.head? with
            | none => ⟨.err .QueueIndexingError, q1, version0, command0, data0⟩
            | some ver =>
              match q1.tail.head? with
              | none => ⟨.err .QueueIndexingError, q1.tail, ver, command0, data0⟩
              | some cmd =>
                match pop_into dataSize 0 q1.tail.tail data0 with
                | (.err e, q2, data1) => ⟨.err e, q2, ver, cmd, data1⟩
                | (.crash, q2, data1) => ⟨.crash, q2, ver, cmd, data1⟩
                | (.ok _, q2, data1) =>
                  match q2.head? with
                  | none => ⟨.err .QueueIndexingError, q2, ver, cmd, data1⟩
                  | some rh =>
                    match q2.tail.head? with
                    | none => ⟨.err .QueueIndexingError, q2.tail, ver, cmd, data1⟩
                    | some rl =>
                      let crcRec := (rh <<< 8) &&& rl
                      if crcNum ≠ crcRec then
                        ⟨.err .CRCMismatch, q2.tail.tail, ver, cmd, data1⟩
                      else ⟨.ok dataSize, q2.tail.tail, ver, cmd, data1⟩

/-- `packers::dev_read_reg_unpack` (src/binarycom/packers.rs): the register
number as the source computes it,
`(u16::from(data[0]) << 8 & 0xFF) & (u16::from(data[1]) << 0 & 0xFF)`. -/
def dev_read_reg_unpack (data : List Nat) : Outcome Nat :=
  if data.length < 2 then .err .SliceTooSmall
  else .ok ((data.getD 0 0 <<< 8 &&& 255) &&& (data.getD 1 0 <<< 0 &&& 255))

/-- `packers::dev_write_reg8_unpack` (src/binarycom/packers.rs): register
number computed as in `dev_read_reg_unpack`, value from `data[2]`. -/
def dev_write_reg8_unpack (data : List Nat) : Outcome (Nat × Nat) :=
  if data.length < 3 then .err .SliceTooSmall
  else .ok ((data.getD 0 0 <<< 8 &&& 255) &&& (data.getD 1 0 <<< 0 &&& 255),
    data.getD 2 0)

/-- `packers::dev_write_reg32_unpack` (src/binarycom/packers.rs). -/
def dev_write_reg32_unpack (data : List Nat) : Outcome (Nat × Nat) :=
  if data.length < 6 then .err .SliceTooSmall
  else .ok ((data.getD 0 0 <<< 8 &&& 255) &&& (data.getD 1 0 <<< 0 &&& 255),
    (data.getD 2 0 <<< 24 &&& 255) &&& (data.getD 3 0 <<< 16 &&& 255) &&&
      (data.getD 4 0 <<< 8 &&& 255) &&& (data.getD 5 0 <<< 0 &&& 255))

/-- `packers::dev_read_reg8_pack` (src/binarycom/packers.rs): write
`[reg_num >> 8 & 0xFF, reg_num & 0xFF, reg_val]` into the first three
slots of `data`; fails if the slice is shorter than 3. -/
def dev_read_reg8_pack (regNum regVal : Nat) (data : List Nat) :
    Outcome Nat × List Nat :=
  if data.length < 3 then (.err .SliceTooSmall, data)
  else (.ok 3,
    ((data.set 0 (regNum >>> 8 &&& 255)).set 1 (regNum &&& 255)).set 2 regVal)

/-- `packers::dev_read_reg32_pack` (src/binarycom/packers.rs). -/
def dev_read_reg32_pack (regNum regVal : Nat) (data : List Nat) :
    Outcome Nat × List Nat :=
  if data.length < 6 then (.err .SliceTooSmall, data)
  else (.ok 6,
    (((((data.set 0 (regNum >>> 8 &&& 255)).set 1 (regNum &&& 255)).set 2
      (regVal >>> 24 &&& 255)).set 3 (regVal >>> 16 &&& 255)).set 4
      (regVal >>> 8 &&& 255)).set 5 (regVal >>> 0 &&& 255))

/-- `packers::dev_write_reg_pack` (src/binarycom/packers.rs): the 2-byte
big-endian register number. -/
def dev_write_reg_pack (regNum : Nat) (data : List Nat) :
    Outcome Nat × List Nat :=
  if data.length < 2 then (.err .SliceTooSmall, data)
  else (.ok 2, (data.set 0 (regNum >>> 8 &&& 255)).set 1 (regNum &&& 255))

/-- `packers::host_read_reg_pack` delegates to `dev_write_reg_pack`. -/
def host_read_reg_pack (regNum : Nat) (data : List Nat) :
    Outcome Nat × List Nat :=
  dev_write_reg_pack regNum data

/-- `packers::host_write_reg8_pack` delegates to `dev_read_reg8_pack`. -/
def host_write_reg8_pack (regNum regVal : Nat) (data : List Nat) :
    Outcome Nat × List Nat :=
  dev_read_reg8_pack regNum regVal data

/-- `packers::host_write_reg32_pack` delegates to `dev_read_reg32_pack`. -/
def host_write_reg32_pack (regNum regVal : Nat) (data : List Nat) :
    Outcome Nat × List Nat :=
  dev_read_reg32_pack regNum regVal data

/-- `packers::host_write_reg_unpack` delegates to `dev_read_reg_unpack`. -/
def host_write_reg_unpack (data : List Nat) : Outcome Nat :=
  dev_read_reg_unpack data

/-- `packers::host_read_reg_unpack` (src/binarycom/packers.rs): dispatch on
the payload length, 3 selects the widened 8-bit path, 6 the 32-bit path,
anything else is `SliceTooSmall`. -/
def host_read_reg_unpack (data : List Nat) : Outcome (Nat × Nat) :=
  if data.length = 3 then dev_write_reg8_unpack data
  else if data.length = 6 then dev_write_reg32_unpack data
  else .err .SliceTooSmall

/-- The 12-bit branch body of `unpack_stream`: consume three bytes per two
samples, with the source's `&`-combinations
(`data[i] << 4 & (data[i+1] >> 4)` and `(data[i+1] & 0xF) << 4 & data[i+2]`). -/
def unpack12 : List Nat → List Nat
  | a :: b :: c :: rest =>
    (a <<< 4 &&& (b >>> 4)) :: ((b &&& 15) <<< 4 &&& c) :: unpack12 rest
  | _ => []

/-- The 16-bit branch body of `unpack_stream`: even/odd byte pairs combined
as `e << 8 & o` (the source's expression). -/
def unpack16 : List Nat → List Nat
  | e :: o :: rest => (e <<< 8 &&& o) :: unpack16 rest
  | _ => []

/-- The 32-bit branch body of `unpack_stream`: four-byte groups combined as
`(d0 << 8 & d1) << 16 & (d2 << 8 & d3)` (the source's expressions). -/
def unpack32 : List Nat → List Nat
  | a :: b :: c :: d :: rest =>
    ((a <<< 8 &&& b) <<< 16 &&& (c <<< 8 &&& d)) :: unpack32 rest
  | _ => []

/-- `packers::unpack_stream` (src/binarycom/packers.rs): word size in bits
is `(command & 0b111) * 4` and the words-per-sample field is
`command >> 3 & 0x1F`; any value other than 1 there hits
`unimplemented!` (modelled by `crash`), as do the odd-length `panic!`
branches, the unsupported word sizes, and — per element — the 4-bit branch,
whose `x >> 0xF` overflows a `u8` shift. -/
def unpack_stream (command : Nat) (data : List Nat) : Outcome (List Nat) :=
  let wordSizeBits := (command &&& 7) * 4
  let nPerSampleWord := command >>> 3 &&& 31
  if nPerSampleWord ≠ 1 then .crash
  else if wordSizeBits = 4 then
    if data.isEmpty then .ok [] else .crash
  else if wordSizeBits = 8 then .ok data
  else if wordSizeBits = 12 then
    if data.length % 3 ≠ 0 then .crash else .ok (unpack12 data)
  else if wordSizeBits = 16 then
    if data.length % 2 ≠ 0 then .crash else .ok (unpack16 data)
  else if wordSizeBits = 32 then
    if data.length % 4 ≠ 0 then .crash else .ok (unpack32 data)
  else .crash

/-- The three outbound mpsc queues of `HostReceiver16`
(src/binarycom/hostreceiver.rs), as the sequences of values sent so far. -/
structure Queues where
  regRead : List (Nat × Nat)
  regWrite : List Nat
  stream : List (Nat × List Nat)
deriving DecidableEq, Repr

/-- `hostreceiver::message_router`: command 0 and 3..=0x7F are reported and
skipped, 1 unpacks a register-read response onto the read queue, 2 unpacks
a write acknowledgement onto the write queue, and 0x80..=0xFF forwards
`(command, data)` onto the streaming queue.  Commands above 0xFF cannot
occur for a `u8`. -/
def message_router (command : Nat) (data : List Nat) (qs : Queues) :
    Outcome Queues :=
  if command = 0 then .ok qs
  else if command = 1 then
    match host_read_reg_unpack data with
    | .ok rv => .ok ⟨qs.regRead ++ [rv], qs.regWrite, qs.stream⟩
    | .err e => .err e
    | .crash => .crash
  else if command = 2 then
    match host_write_reg_unpack data with
    | .ok r => .ok ⟨qs.regRead, qs.regWrite ++ [r], qs.stream⟩
    | .err e => .err e
    | .crash => .crash
  else if command ≤ 0x7F then .ok qs
  else if command ≤ 0xFF then .ok ⟨qs.regRead, qs.regWrite, qs.stream ++ [(command, data)]⟩
  else .ok qs

/-- Functional description of the COBS-encoded image of a byte sequence
`l` that ends in the zero comma byte: each zero (the virtual one in front
included) is replaced by the distance to the next zero, and the final zero
survives as the comma.  `cobs_spec l` describes the buffer produced by
`cobs_encode` from `0 :: l`. -/
def cobs_spec (l : List Nat) : List Nat :=
  let a := l.takeWhile (fun x => x != 0)
  let r := l.dropWhile (fun x => x != 0)
  if r = [] then [0]
  else (a.length + 1) :: a ++ cobs_spec r.tail
termination_by l.length
decreasing_by
  have h1 : (l.dropWhile (fun x => x != 0)).length ≤ l.length :=
    (List.dropWhile_sublist _).length_le
  have h3 : 0 < (l.dropWhile (fun x => x != 0)).length :=
    List.length_pos.mpr (by assumption)
  simp only [List.length_tail]
  omega

/-- A byte sequence either empty or ending in the zero comma byte; the
shape of every sequence `cobs_encode` builds its chain over. -/
def EndsZero (l : List Nat) : Prop := l = [] ∨ l.getLast? = some 0

theorem cobs_spec_nil : cobs_spec [] = [0] := by
  rw [cobs_spec]; simp

theorem cobs_spec_cons (l : List Nat) (h : l.dropWhile (fun x => x != 0) ≠ []) :
    cobs_spec l = ((l.takeWhile (fun x => x != 0)).length + 1) ::
      l.takeWhile (fun x => x != 0) ++
        cobs_spec (l.dropWhile (fun x => x != 0)).tail := by
  rw [cobs_spec]; simp [h]

theorem dropWhile_ne_nil_of_endsZero (l : List Nat) (h0 : EndsZero l)
    (hne : l ≠ []) : l.dropWhile (fun x => x != 0) ≠ [] := by
  intro hd
  rcases h0 with h | h
  · exact hne h
  · have hmem : (0 : Nat) ∈ l := List.mem_of_mem_getLast? h
    have := List.dropWhile_eq_nil_iff.mp hd 0 hmem
    simp at this

theorem head_dropWhile_zero (l : List Nat)
    (h : l.dropWhile (fun x => x != 0) ≠ []) :
    (l.dropWhile (fun x => x != 0)).head? = some 0 := by
  induction l with
  | nil => simp at h
  | cons x xs ih =>
    by_cases hx : x = 0
    · subst hx; simp [List.dropWhile]
    · rw [List.dropWhile_cons_of_pos (by simp [hx])] at h ⊢
      exact ih h

/-- Split a nonempty sequence that ends in zero at its first zero:
`l = a ++ 0 :: rest` with `a` its zero-free take and `rest` again empty or
ending in zero. -/
theorem split_endsZero (l : List Nat) (h0 : EndsZero l) (hne : l ≠ []) :
    l = l.takeWhile (fun x => x != 0) ++
        0 :: (l.dropWhile (fun x => x != 0)).tail ∧
      EndsZero ((l.dropWhile (fun x => x != 0)).tail) := by
  have hd := dropWhile_ne_nil_of_endsZero l h0 hne
  have hh := head_dropWhile_zero l hd
  have hcons : (0 : Nat) :: (l.dropWhile (fun x => x != 0)).tail =
      l.dropWhile (fun x => x != 0) :=
    List.cons_head?_tail (by rw [hh]; rfl)
  constructor
  · conv_lhs => rw [← List.takeWhile_append_dropWhile (fun x => x != 0) l]
    rw [hcons]
  · by_cases ht : (l.dropWhile (fun x => x != 0)).tail = []
    · exact Or.inl ht
    · right
      rcases h0 with h | h
      · exact absurd h hne
      · rw [← h]
        conv_rhs => rw [← List.takeWhile_append_dropWhile (fun x => x != 0) l, ← hcons]
        rw [List.getLast?_append]
        rw [List.getLast?_cons]
        have : ((l.dropWhile (fun x => x != 0)).tail).getLast?.isSome := by
          simp [List.getLast?_isSome, ht]
        cases hg : ((l.dropWhile (fun x => x != 0)).tail).getLast? with
        | none => rw [hg] at this; simp at this
        | some y => simp [hg]

theorem cobs_spec_length (l : List Nat) (h0 : EndsZero l) :
    (cobs_spec l).length = l.length + 1 := by
  obtain ⟨n, hn⟩ : ∃ n, l.length ≤ n := ⟨l.length, le_refl _⟩
  induction n generalizing l with
  | zero =>
    have : l = [] := List.length_eq_zero.mp (by omega)
    subst this; simp [cobs_spec_nil]
  | succ n ih =>
    by_cases hne : l = []
    · subst hne; simp [cobs_spec_nil]
    · have hd := dropWhile_ne_nil_of_endsZero l h0 hne
      obtain ⟨hsplit, hrest⟩ := split_endsZero l h0 hne
      rw [cobs_spec_cons l hd]
      have hpos : 0 < (l.dropWhile (fun x => x != 0)).length :=
        List.length_pos.mpr hd
      have hlen : l.length = (l.takeWhile (fun x => x != 0)).length + 1 +
          ((l.dropWhile (fun x => x != 0)).tail).length := by
        conv_lhs => rw [hsplit]
        simp
        omega
      have hrlen : ((l.dropWhile (fun x => x != 0)).tail).length ≤ n := by omega
      have ihr := ih _ hrest hrlen
      simp only [List.length_cons, List.length_append]
      rw [ihr]
      omega

theorem getElem_append_cons (P S : Buf) (x : Nat) :
    (P ++ x :: S)[P.length]? = some x := by
  rw [List.getElem?_append_right (le_refl _)]
  simp

theorem set_append_cons (P S : Buf) (x y : Nat) :
    (P ++ x :: S).set P.length y = P ++ y :: S := by
  rw [List.set_append]
  simp

/-- The decode walk, run on the encoded image `cobs_spec l` placed after an
arbitrary processed prefix `P`, restores every visited offset position to
zero and stops exactly on the comma byte, at absolute position
`P.length + l.length`. -/
theorem cobs_decode_go_spec (n : Nat) :
    ∀ (l P : Buf) (fuel : Nat), l.length ≤ n → EndsZero l →
      l.length + 1 ≤ fuel →
      cobs_decode_go fuel (P ++ cobs_spec l) P.length =
        (some (P.length + l.length), P ++ 0 :: l) := by
  induction n with
  | zero =>
    intro l P fuel hn h0 hfuel
    have hl : l = [] := List.length_eq_zero.mp (by omega)
    subst hl
    obtain ⟨f, rfl⟩ : ∃ f, fuel = f + 1 := ⟨fuel - 1, by omega⟩
    rw [cobs_spec_nil]
    simp only [cobs_decode_go, getElem_append_cons]
    simp
  | succ n ih =>
    intro l P fuel hn h0 hfuel
    by_cases hne : l = []
    · subst hne
      obtain ⟨f, rfl⟩ : ∃ f, fuel = f + 1 := ⟨fuel - 1, by omega⟩
      rw [cobs_spec_nil]
      simp only [cobs_decode_go, getElem_append_cons]
      simp
    · have hd := dropWhile_ne_nil_of_endsZero l h0 hne
      obtain ⟨hsplit, hrest⟩ := split_endsZero l h0 hne
      rw [cobs_spec_cons l hd]
      obtain ⟨f, rfl⟩ : ∃ f, fuel = f + 1 := ⟨fuel - 1, by omega⟩
      rw [List.cons_append]
      simp only [cobs_decode_go, getElem_append_cons]
      rw [if_neg (by simp)]
      rw [set_append_cons]
      have hassoc : P ++ 0 :: (l.takeWhile (fun x => x != 0) ++
          cobs_spec ((l.dropWhile (fun x => x != 0)).tail)) =
          (P ++ 0 :: l.takeWhile (fun x => x != 0)) ++
            cobs_spec ((l.dropWhile (fun x => x != 0)).tail) := by
        simp
      rw [hassoc]
      have hidx : P.length + ((l.takeWhile (fun x => x != 0)).length + 1) =
          (P ++ 0 :: l.takeWhile (fun x => x != 0)).length := by
        simp
      rw [hidx]
      have hpos : 0 < (l.dropWhile (fun x => x != 0)).length :=
        List.length_pos.mpr hd
      have hlenl : l.length = (l.takeWhile (fun x => x != 0)).length + 1 +
          ((l.dropWhile (fun x => x != 0)).tail).length := by
        conv_lhs => rw [hsplit]
        simp
        omega
      rw [ih ((l.dropWhile (fun x => x != 0)).tail)
        (P ++ 0 :: l.takeWhile (fun x => x != 0)) f (by omega) hrest (by omega)]
      have hfin : (P ++ 0 :: l.takeWhile (fun x => x != 0)).length +
          ((l.dropWhile (fun x => x != 0)).tail).length = P.length + l.length := by
        simp only [List.length_append, List.length_cons]
        omega
      rw [hfin]
      conv_rhs => rw [hsplit]
      have htl : ((l.dropWhile (fun x => x != 0)).tail).length =
          (l.dropWhile (fun x => x != 0)).length - 1 := List.length_tail _
      simp
      omega

/-- Split a nonempty comma-terminated sequence at its first zero and give
the corresponding unfolding of `cobs_spec`. -/
theorem cobs_spec_split (l : List Nat) (h0 : EndsZero l) (hne : l ≠ []) :
    ∃ A T, (∀ x ∈ A, x ≠ 0) ∧ EndsZero T ∧ l = A ++ 0 :: T ∧
      cobs_spec l = ((A.length + 1) :: A) ++ cobs_spec T := by
  have hd := dropWhile_ne_nil_of_endsZero l h0 hne
  obtain ⟨hsplit, hrest⟩ := split_endsZero l h0 hne
  refine ⟨l.takeWhile (fun x => x != 0), (l.dropWhile (fun x => x != 0)).tail,
    ?_, hrest, hsplit, ?_⟩
  · intro x hx
    have := List.mem_takeWhile_imp hx
    simpa using this
  · rw [cobs_spec_cons l hd]

/-- The encode rewrite loop skips over a zero-free block: scanning
`a.length` positions that hold the nonzero bytes of `a` advances `i`
without touching the buffer. -/
theorem cobs_encode_go_skip (a : Buf) :
    ∀ (fuel qlen iLast i : Nat) (q : Buf),
      qlen = q.length →
      (∀ k, k < a.length → q[i + k]? = a[k]?) →
      (∀ x ∈ a, x ≠ 0) →
      cobs_encode_go (fuel + a.length) qlen iLast i q =
        cobs_encode_go fuel qlen iLast (i + a.length) q := by
  induction a with
  | nil => intro fuel qlen iLast i q _ _ _; simp
  | cons x a ih =>
    intro fuel qlen iLast i q hqlen hq hz
    have hx0 : q[i]? = some x := by
      have := hq 0 (by simp)
      simpa using this
    have hi : i < q.length := by
      by_contra hcon
      rw [List.getElem?_eq_none (by omega)] at hx0
      exact Option.noConfusion hx0
    have hxne : x ≠ 0 := hz x (List.mem_cons_self x a)
    have hstep : cobs_encode_go (fuel + (x :: a).length) qlen iLast i q =
        cobs_encode_go (fuel + a.length) qlen iLast (i + 1) q := by
      have harith : fuel + (x :: a).length = (fuel + a.length) + 1 := by
        simp only [List.length_cons]
        omega
      rw [harith]
      simp only [cobs_encode_go]
      rw [if_pos (by omega), hx0]
      cases x with
      | zero => exact absurd rfl hxne
      | succ y => rfl
    rw [hstep]
    have harith2 : i + (x :: a).length = (i + 1) + a.length := by
      simp only [List.length_cons]
      omega
    rw [harith2]
    refine ih fuel qlen iLast (i + 1) q hqlen ?_ ?_
    · intro k hk
      have := hq (k + 1) (by simp only [List.length_cons]; omega)
      have harith3 : i + (k + 1) = i + 1 + k := by omega
      rw [harith3] at this
      simpa using this
    · intro z hzmem
      exact hz z (List.mem_cons_of_mem x hzmem)

/-- The encode rewrite loop, run with the previous-zero marker on the
virtual overhead byte in front of `l` (a sequence ending in the comma
byte), turns `P ++ 0 :: l` into `P ++ cobs_spec l`. -/
theorem cobs_encode_go_spec (n : Nat) :
    ∀ (l P : Buf) (fuel qlen : Nat), l.length ≤ n → EndsZero l →
      qlen = P.length + 1 + l.length →
      qlen ≤ 256 →
      l.length + 1 ≤ fuel →
      cobs_encode_go fuel qlen P.length (P.length + 1) (P ++ 0 :: l) =
        (.ok (), P ++ cobs_spec l) := by
  induction n with
  | zero =>
    intro l P fuel qlen hn h0 hqlen h256 hfuel
    have hl : l = [] := List.length_eq_zero.mp (by omega)
    subst hl
    obtain ⟨f, rfl⟩ : ∃ f, fuel = f + 1 := ⟨fuel - 1, by omega⟩
    rw [cobs_spec_nil]
    simp only [List.length_nil] at hqlen
    simp only [cobs_encode_go]
    rw [if_neg (by omega)]
  | succ n ih =>
    intro l P fuel qlen hn h0 hqlen h256 hfuel
    by_cases hne : l = []
    · subst hne
      obtain ⟨f, rfl⟩ : ∃ f, fuel = f + 1 := ⟨fuel - 1, by omega⟩
      rw [cobs_spec_nil]
      simp only [List.length_nil] at hqlen
      simp only [cobs_encode_go]
      rw [if_neg (by omega)]
    · obtain ⟨A, T, hAzf, hTend, hsplit, hspec⟩ := cobs_spec_split l h0 hne
      subst hsplit
      have hlen : (A ++ 0 :: T).length = A.length + 1 + T.length := by
        simp only [List.length_append, List.length_cons, List.length_nil]
        omega
      rw [hlen] at hqlen hn hfuel
      rw [hspec]
      have hread : ∀ k, k < A.length →
          (P ++ 0 :: (A ++ 0 :: T))[P.length + 1 + k]? = A[k]? := by
        intro k hk
        have hform : P ++ 0 :: (A ++ 0 :: T) = (P ++ [0]) ++ (A ++ 0 :: T) := by
          simp
        rw [hform, List.getElem?_append_right (by simp only [List.length_append, List.length_cons, List.length_nil]; omega)]
        have hidx : P.length + 1 + k - (P ++ [0]).length = k := by simp
        rw [hidx, List.getElem?_append]
        rw [if_pos hk]
      have hskip := cobs_encode_go_skip A (fuel - A.length) qlen P.length
        (P.length + 1) (P ++ 0 :: (A ++ 0 :: T)) (by simp only [List.length_append, List.length_cons, List.length_nil]; omega) hread hAzf
      rw [show fuel = (fuel - A.length) + A.length from by omega, hskip]
      obtain ⟨f, hf⟩ : ∃ f, fuel - A.length = f + 1 := ⟨fuel - A.length - 1, by omega⟩
      rw [hf]
      simp only [cobs_encode_go]
      rw [if_pos (by omega)]
      have hread2 : (P ++ 0 :: (A ++ 0 :: T))[P.length + 1 + A.length]? = some 0 := by
        have hform2 : P ++ 0 :: (A ++ 0 :: T) =
            (P ++ 0 :: A) ++ 0 :: T := by simp
        have hidx2 : P.length + 1 + A.length = (P ++ 0 :: A).length := by
          simp only [List.length_append, List.length_cons, List.length_nil]
          omega
        rw [hform2, hidx2, getElem_append_cons]
      rw [hread2]
      simp only []
      rw [if_pos (by simp only [List.length_append, List.length_cons, List.length_nil]; omega)]
      rw [if_pos (by omega)]
      have hset : (P ++ 0 :: (A ++ 0 :: T)).set P.length
          (P.length + 1 + A.length - P.length) =
          (P ++ (A.length + 1) :: A) ++ 0 :: T := by
        rw [set_append_cons]
        have harith : P.length + 1 + A.length - P.length = A.length + 1 := by omega
        rw [harith]
        simp
      rw [hset]
      have hlast : P.length + 1 + A.length = (P ++ (A.length + 1) :: A).length := by
        simp only [List.length_append, List.length_cons, List.length_nil]
        omega
      rw [hlast]
      have hih := ih T (P ++ (A.length + 1) :: A) f qlen (by omega) hTend
        (by simp only [List.length_append, List.length_cons, List.length_nil]; omega) h256 (by omega)
      rw [hih]
      simp

theorem cobs_spec_ne_nil (l : List Nat) (h0 : EndsZero l) :
    cobs_spec l ≠ [] := by
  have := cobs_spec_length l h0
  intro hcon
  rw [hcon] at this
  simp at this

/-- Structure of the encoded image: every byte before the final one is
nonzero and the final byte is the zero comma. -/
theorem cobs_spec_structure (l : List Nat) (h0 : EndsZero l) :
    (∀ x ∈ (cobs_spec l).dropLast, x ≠ 0) ∧
      (cobs_spec l).getLast? = some 0 := by
  obtain ⟨n, hn⟩ : ∃ n, l.length ≤ n := ⟨l.length, le_refl _⟩
  induction n generalizing l with
  | zero =>
    have hl : l = [] := List.length_eq_zero.mp (by omega)
    subst hl
    rw [cobs_spec_nil]
    simp
  | succ n ih =>
    by_cases hne : l = []
    · subst hne
      rw [cobs_spec_nil]
      simp
    · obtain ⟨A, T, hAzf, hTend, hsplit, hspec⟩ := cobs_spec_split l h0 hne
      have hTlen : T.length ≤ n := by
        have : l.length = A.length + 1 + T.length := by
          rw [hsplit]
          simp only [List.length_append, List.length_cons]
          omega
        omega
      obtain ⟨ihm, ihl⟩ := ih T hTend hTlen
      have hRne : cobs_spec T ≠ [] := cobs_spec_ne_nil T hTend
      rw [hspec]
      constructor
      · intro x hx
        rw [List.dropLast_append_of_ne_nil _ hRne] at hx
        rcases List.mem_append.mp hx with hx | hx
        · rcases List.mem_cons.mp hx with hx | hx
          · omega
          · exact hAzf x hx
        · exact ihm x hx
      · rw [List.getLast?_append]
        rw [ihl]
        rfl

theorem pushBack_small (cap : Nat) (q : Buf) (x : Nat) (h : q.length ≠ cap) :
    pushBack cap q x = q ++ [x] := by
  unfold pushBack
  rw [if_neg h]

theorem pushFront_small (cap : Nat) (q : Buf) (x : Nat) (h : q.length ≠ cap) :
    pushFront cap q x = x :: q := by
  unfold pushFront
  rw [if_neg h]

theorem foldl_pushBack (cap : Nat) :
    ∀ (d acc : Buf), acc.length + d.length ≤ cap →
      d.foldl (pushBack cap) acc = acc ++ d := by
  intro d
  induction d with
  | nil => intro acc h; simp
  | cons x d ih =>
    intro acc h
    simp only [List.foldl_cons]
    rw [pushBack_small cap acc x
      (by simp only [List.length_cons] at h; omega)]
    rw [ih (acc ++ [x]) (by simp only [List.length_append, List.length_cons,
      List.length_nil] at h ⊢; omega)]
    simp

/-- Full behaviour of `cobs_encode` on a fitting nonempty message: success
with the new length `msg.length + 2` and the buffer `cobs_spec (msg ++ [0])`. -/
theorem cobs_encode_spec (cap : Nat) (msg : Buf) (h1 : 1 ≤ msg.length)
    (h2 : msg.length + 2 ≤ cap) (h3 : cap ≤ 256) :
    cobs_encode cap msg = (.ok (msg.length + 2), cobs_spec (msg ++ [0])) := by
  have hend : EndsZero (msg ++ [0]) := Or.inr (List.getLast?_concat _)
  have e1 : pushFront cap msg 0 = 0 :: msg := pushFront_small cap msg 0 (by omega)
  have e2 : pushBack cap (0 :: msg) 0 = 0 :: (msg ++ [0]) := by
    rw [pushBack_small cap (0 :: msg) 0
      (by simp only [List.length_cons]; omega)]
    simp
  have hgo := cobs_encode_go_spec (msg ++ [0]).length (msg ++ [0]) []
    (0 :: (msg ++ [0])).length (0 :: (msg ++ [0])).length (le_refl _) hend
    (by simp only [List.length_cons, List.length_nil]; omega)
    (by simp only [List.length_cons, List.length_append, List.length_nil]; omega)
    (by simp only [List.length_cons, List.length_append, List.length_nil]; omega)
  simp only [List.length_nil, List.nil_append, Nat.zero_add] at hgo
  have hlenq : (cobs_spec (msg ++ [0])).length = msg.length + 2 := by
    rw [cobs_spec_length _ hend]
    simp
  simp only [cobs_encode]
  rw [if_neg (by omega), if_neg (by omega), e1]
  rw [if_neg (by simp only [List.length_cons]; omega)]
  rw [e2, hgo]
  simp only []
  rw [hlenq]

/-- Full behaviour of `cobs_decode` on an encoded image: the offset chain
is walked back to zeros, the overhead byte is popped, and the returned
count is the message length without the comma byte. -/
theorem cobs_decode_spec (msg : Buf) (h1 : 1 ≤ msg.length) :
    cobs_decode (cobs_spec (msg ++ [0])) = (.ok msg.length, msg ++ [0]) := by
  have hend : EndsZero (msg ++ [0]) := Or.inr (List.getLast?_concat _)
  have hlenq : (cobs_spec (msg ++ [0])).length = msg.length + 2 := by
    rw [cobs_spec_length _ hend]
    simp
  have hgo := cobs_decode_go_spec (msg ++ [0]).length (msg ++ [0]) []
    ((cobs_spec (msg ++ [0])).length) (le_refl _) hend
    (by rw [hlenq]; simp only [List.length_append, List.length_cons,
      List.length_nil]; omega)
  simp only [List.nil_append, List.length_nil, Nat.zero_add] at hgo
  simp only [cobs_decode]
  rw [if_neg (by rw [hlenq]; omega)]
  rw [hgo]
  simp only []
  rw [if_neg (by simp only [List.length_append, List.length_cons,
    List.length_nil]; omega)]
  simp only [List.tail_cons]
  simp only [List.length_append, List.length_cons, List.length_nil]
  norm_num

/-- Successful behaviour of the unversioned `send_message`: an accepted
payload yields `Ok` with wire length `data.length + 5` (command byte, two
CRC bytes, COBS overhead byte and comma byte), and leaves the buffer at
exactly that length. -/
theorem send_message_spec (cap : Nat) (q0 : Buf) (c : Nat) (d : List Nat)
    (h1 : d.length + 5 ≤ cap) (h3 : cap ≤ 256) :
    (send_message cap q0 c d).1 = .ok (d.length + 5) ∧
      (send_message cap q0 c d).2.length = d.length + 5 := by
  have hl0 : ([] : Buf).length ≠ cap := by simp only [List.length_nil]; omega
  have hl1 : ([c] : Buf).length + d.length ≤ cap := by
    simp only [List.length_cons, List.length_nil]
    omega
  have hq : d.foldl (pushBack cap) (pushBack cap [] c) = c :: d := by
    rw [pushBack_small cap [] c hl0]
    simp only [List.nil_append]
    rw [foldl_pushBack cap d [c] hl1]
    simp
  have hcrc : compute_crc_bytes (c :: d) (c :: d).length =
      .ok ((crc16dnp (c :: d) >>> 8) &&& 255, crc16dnp (c :: d) &&& 255) := by
    simp [compute_crc_bytes, compute_crc]
  have hlq2a : (c :: d).length ≠ cap := by
    simp only [List.length_cons]
    omega
  have hq2a : pushBack cap (c :: d) ((crc16dnp (c :: d) >>> 8) &&& 255) =
      (c :: d) ++ [(crc16dnp (c :: d) >>> 8) &&& 255] :=
    pushBack_small _ _ _ hlq2a
  have hlq2b : ((c :: d) ++ [(crc16dnp (c :: d) >>> 8) &&& 255]).length ≠ cap := by
    simp only [List.length_append, List.length_cons, List.length_nil]
    omega
  have hq2b : pushBack cap ((c :: d) ++ [(crc16dnp (c :: d) >>> 8) &&& 255])
      (crc16dnp (c :: d) &&& 255) =
      ((c :: d) ++ [(crc16dnp (c :: d) >>> 8) &&& 255]) ++
        [crc16dnp (c :: d) &&& 255] :=
    pushBack_small _ _ _ hlq2b
  have hlm1 : 1 ≤ (((c :: d) ++ [(crc16dnp (c :: d) >>> 8) &&& 255]) ++
      [crc16dnp (c :: d) &&& 255]).length := by
    simp only [List.length_append, List.length_cons, List.length_nil]
    omega
  have hlm2 : (((c :: d) ++ [(crc16dnp (c :: d) >>> 8) &&& 255]) ++
      [crc16dnp (c :: d) &&& 255]).length + 2 ≤ cap := by
    simp only [List.length_append, List.length_cons, List.length_nil]
    omega
  have henc := cobs_encode_spec cap
    (((c :: d) ++ [(crc16dnp (c :: d) >>> 8) &&& 255]) ++
      [crc16dnp (c :: d) &&& 255]) hlm1 hlm2 h3
  have hlenE : (cobs_spec ((((c :: d) ++ [(crc16dnp (c :: d) >>> 8) &&& 255]) ++
      [crc16dnp (c :: d) &&& 255]) ++ [0])).length = d.length + 5 := by
    rw [cobs_spec_length _ (Or.inr (List.getLast?_concat _))]
    simp only [List.length_append, List.length_cons, List.length_nil]
    try omega
  have hbig : ¬ (d.length > cap - 5) := by omega
  simp only [send_message]
  rw [if_neg hbig, hq, hcrc]
  simp only []
  rw [hq2a, hq2b, henc]
  simp only []
  rw [hlenE]
  exact ⟨rfl, rfl⟩

/-- Successful behaviour of the versioned `send_message`: an accepted
payload yields `Ok` with wire length `data.length + 6` (version byte,
command byte, two CRC bytes, COBS overhead byte and comma byte). -/
theorem send_message_v_spec (cap : Nat) (q0 : Buf) (v c : Nat) (d : List Nat)
    (h1 : d.length + 6 ≤ cap) (h3 : cap ≤ 256) :
    (send_message_v cap q0 v c d).1 = .ok (d.length + 6) ∧
      (send_message_v cap q0 v c d).2.length = d.length + 6 := by
  have hl0 : ([] : Buf).length ≠ cap := by simp only [List.length_nil]; omega
  have hl1 : ([v] : Buf).length ≠ cap := by
    simp only [List.length_cons, List.length_nil]
    omega
  have hl2 : ([v, c] : Buf).length + d.length ≤ cap := by
    simp only [List.length_cons, List.length_nil]
    omega
  have hq : d.foldl (pushBack cap) (pushBack cap (pushBack cap [] v) c) =
      v :: c :: d := by
    rw [pushBack_small cap [] v hl0]
    simp only [List.nil_append]
    rw [pushBack_small cap [v] c hl1]
    have hvc : ([v] : Buf) ++ [c] = [v, c] := rfl
    rw [hvc]
    rw [foldl_pushBack cap d [v, c] hl2]
    simp
  have hlq2a : (v :: c :: d).length ≠ cap := by
    simp only [List.length_cons]
    omega
  have hq2a : pushBack cap (v :: c :: d)
      ((crc16dnp (v :: c :: d) >>> 8) &&& 255) =
      (v :: c :: d) ++ [(crc16dnp (v :: c :: d) >>> 8) &&& 255] :=
    pushBack_small _ _ _ hlq2a
  have hlq2b : ((v :: c :: d) ++
      [(crc16dnp (v :: c :: d) >>> 8) &&& 255]).length ≠ cap := by
    simp only [List.length_append, List.length_cons, List.length_nil]
    omega
  have hq2b : pushBack cap ((v :: c :: d) ++
      [(crc16dnp (v :: c :: d) >>> 8) &&& 255]) (crc16dnp (v :: c :: d) &&& 255) =
      ((v :: c :: d) ++ [(crc16dnp (v :: c :: d) >>> 8) &&& 255]) ++
        [crc16dnp (v :: c :: d) &&& 255] :=
    pushBack_small _ _ _ hlq2b
  have hlm1 : 1 ≤ (((v :: c :: d) ++ [(crc16dnp (v :: c :: d) >>> 8) &&& 255]) ++
      [crc16dnp (v :: c :: d) &&& 255]).length := by
    simp only [List.length_append, List.length_cons, List.length_nil]
    omega
  have hlm2 : (((v :: c :: d) ++ [(crc16dnp (v :: c :: d) >>> 8) &&& 255]) ++
      [crc16dnp (v :: c :: d) &&& 255]).length + 2 ≤ cap := by
    simp only [List.length_append, List.length_cons, List.length_nil]
    omega
  have henc := cobs_encode_spec cap
    (((v :: c :: d) ++ [(crc16dnp (v :: c :: d) >>> 8) &&& 255]) ++
      [crc16dnp (v :: c :: d) &&& 255]) hlm1 hlm2 h3
  have hlenE : (cobs_spec ((((v :: c :: d) ++
      [(crc16dnp (v :: c :: d) >>> 8) &&& 255]) ++
      [crc16dnp (v :: c :: d) &&& 255]) ++ [0])).length = d.length + 6 := by
    rw [cobs_spec_length _ (Or.inr (List.getLast?_concat _))]
    simp only [List.length_append, List.length_cons, List.length_nil]
    try omega
  have hbig : ¬ (d.length > cap - 6) := by omega
  simp only [send_message_v]
  rw [if_neg hbig, hq]
  rw [hq2a, hq2b, henc]
  simp only []
  rw [hlenE]
  exact ⟨rfl, rfl⟩

theorem send_message_too_big (cap : Nat) (q0 : Buf) (c : Nat) (d : List Nat)
    (h : d.length > cap - 5) :
    send_message cap q0 c d = (.err .SliceTooBig, q0) := by
  simp only [send_message]
  rw [if_pos h]

theorem send_message_v_too_big (cap : Nat) (q0 : Buf) (v c : Nat) (d : List Nat)
    (h : d.length > cap - 6) :
    send_message_v cap q0 v c d = (.err .SliceTooBig, q0) := by
  simp only [send_message_v]
  rw [if_pos h]

theorem receive_message_too_small (cap : Nat) (q0 : Buf) (c0 : Nat)
    (d0 : List Nat) (h : d0.length < cap - 5) :
    receive_message cap q0 c0 d0 = ⟨.err .SliceTooSmall, q0, c0, d0⟩ := by
  simp only [receive_message]
  rw [if_pos h]

theorem receive_message_v_too_small (cap : Nat) (q0 : Buf) (v0 c0 : Nat)
    (d0 : List Nat) (h : d0.length < cap - 4) :
    receive_message_v cap q0 v0 c0 d0 = ⟨.err .SliceTooSmall, q0, v0, c0, d0⟩ := by
  simp only [receive_message_v]
  rw [if_pos h]

theorem cobs_encode_full_err (cap : Nat) (q : Buf) (h0 : q.length ≠ 0)
    (h : q.length = cap) :
    cobs_encode cap q = (.err .QueueTooFull, q) := by
  simp only [cobs_encode]
  rw [if_neg h0, if_pos h]

set_option maxRecDepth 40000 in
/-- C1: the frame codec round-trip fails on the versioned wire variant.
`receive_message` in src/binarycom.rs reassembles the received checksum as
`(crc_rec_high_byte << 8) & crc_rec_low_byte`, which is always zero, so a
frame produced by its own `send_message` (here version 1, command 2, empty
payload, capacity 16) is rejected with `CRCMismatch` — contradicting both
the round-trip property and the crate's own `test_receive`.  The
unversioned variant (src/binarycom/mod.rs) round-trips correctly, shown
here on command `0x8F` with payload `[0,…,9]`: command, payload bytes and
payload length are all recovered exactly. -/
theorem roundtrip_versioned_fails_unversioned_succeeds :
    (receive_message_v 16 (send_message_v 16 [] 1 2 []).2 0 0
      (List.replicate 12 9)).res = .err .CRCMismatch ∧
    receive_message 16 (send_message 16 [] 0x8F [0,1,2,3,4,5,6,7,8,9]).2 0
      (List.replicate 11 0) =
      ⟨.ok 10, [0], 0x8F, [0,1,2,3,4,5,6,7,8,9,0]⟩ := by
  decide

set_option maxRecDepth 40000 in
/-- C2: the versioned `receive_message` can succeed on a frame whose two
received checksum bytes (`0x12`, `0x34`) disagree with the CRC recomputed
over the decoded header — because the received pair is reassembled with
`&`, which always yields 0, any frame whose recomputed CRC is 0 (such as
the header `[199, 112]`) is silently accepted with arbitrary checksum
bytes, so success is not equivalent to byte-wise checksum equality. -/
theorem receive_v_silent_success_on_mismatched_checksum :
    (receive_message_v 16 (cobs_encode 16 [199, 112, 0x12, 0x34]).2 0 0
      (List.replicate 12 9)).res = .ok 0 ∧
    crc16dnp [199, 112] = 0 ∧
    ((0x12 : Nat), (0x34 : Nat)) ≠
      ((crc16dnp [199, 112] >>> 8) &&& 255, crc16dnp [199, 112] &&& 255) := by
  decide

/-- C3: `host_write_reg8_pack` writes the big-endian layout
`[hi r, lo r, v]` as specified, but `dev_write_reg8_unpack` reassembles the
register number as `(d0 << 8 & 0xFF) & (d1 & 0xFF)`, which is always 0:
unpacking the packed slice for register 42 (and for `0x1234`) returns
register 0, not the original register. -/
theorem write_reg8_pack_unpack_mismatch :
    host_write_reg8_pack 42 7 [0, 0, 0] = (.ok 3, [0, 42, 7]) ∧
    dev_write_reg8_unpack [0, 42, 7] = .ok (0, 7) ∧
    host_write_reg8_pack 0x1234 7 [0, 0, 0] = (.ok 3, [0x12, 0x34, 7]) ∧
    dev_write_reg8_unpack [0x12, 0x34, 7] = .ok (0, 7) ∧
    ((0 : Nat), (7 : Nat)) ≠ ((42 : Nat), (7 : Nat)) := by
  decide

/-- C4: a frame with command `0x85` and payload `[0,0,0,0]` is routed to
the streaming queue and to neither register queue, but `unpack_stream`
aborts on it instead of yielding `[0,0,0,0]`: the words-per-sample field
`command >> 3 & 0x1F` evaluates to 16 (the mask keeps the high command
bit that is set on every streamable command), which hits
`unimplemented!`. -/
theorem stream_routing_ok_unpack_aborts :
    message_router 0x85 [0, 0, 0, 0] ⟨[], [], []⟩ =
      .ok ⟨[], [], [(0x85, [0, 0, 0, 0])]⟩ ∧
    unpack_stream 0x85 [0, 0, 0, 0] = .crash ∧
    (0x85 >>> 3) &&& 31 = 16 := by
  decide

/-- C5: the decode path can abort instead of returning a typed error: on
the buffer `[0,1,2]` the walk stops at `i_zero = 0` and `cobs_decode`
computes `0usize - 1`, an unchecked underflow (debug abort; in release the
wrapped value drives an out-of-range slice index in the receive path), and
`receive_message` likewise underflows `msg_chk_size - 2` on the buffer
`[1,0,7]`. -/
theorem decode_underflow_aborts :
    cobs_decode [0, 1, 2] = (.crash, [1, 2]) ∧
    (receive_message 16 [1, 0, 7] 3 (List.replicate 11 0)).res = .crash := by
  decide

/-- C6: capacity boundary for every supported buffer capacity and both
variants.  A payload of exactly `max_payload` bytes (11 for the
unversioned 16-byte codec, 59 for the 64-byte one, 10 and 58 for the
versioned codec) always succeeds, and one byte more always fails with
`SliceTooBig`, for every payload content, command, and prior buffer
content. -/
theorem send_capacity_boundary :
    (∀ (q0 : Buf) (c : Nat) (d : List Nat), d.length = 11 →
      ((send_message 16 q0 c d).1).isOk = true) ∧
    (∀ (q0 : Buf) (c : Nat) (d : List Nat), d.length = 12 →
      (send_message 16 q0 c d).1 = .err .SliceTooBig) ∧
    (∀ (q0 : Buf) (c : Nat) (d : List Nat), d.length = 59 →
      ((send_message 64 q0 c d).1).isOk = true) ∧
    (∀ (q0 : Buf) (c : Nat) (d : List Nat), d.length = 60 →
      (send_message 64 q0 c d).1 = .err .SliceTooBig) ∧
    (∀ (q0 : Buf) (v c : Nat) (d : List Nat), d.length = 10 →
      ((send_message_v 16 q0 v c d).1).isOk = true) ∧
    (∀ (q0 : Buf) (v c : Nat) (d : List Nat), d.length = 11 →
      (send_message_v 16 q0 v c d).1 = .err .SliceTooBig) ∧
    (∀ (q0 : Buf) (v c : Nat) (d : List Nat), d.length = 58 →
      ((send_message_v 64 q0 v c d).1).isOk = true) ∧
    (∀ (q0 : Buf) (v c : Nat) (d : List Nat), d.length = 59 →
      (send_message_v 64 q0 v c d).1 = .err .SliceTooBig) := by
  refine ⟨?_, ?_, ?_, ?_, ?_, ?_, ?_, ?_⟩
  · intro q0 c d hd
    rw [(send_message_spec 16 q0 c d (by omega) (by omega)).1]
    rfl
  · intro q0 c d hd
    rw [send_message_too_big 16 q0 c d (by omega)]
  · intro q0 c d hd
    rw [(send_message_spec 64 q0 c d (by omega) (by omega)).1]
    rfl
  · intro q0 c d hd
    rw [send_message_too_big 64 q0 c d (by omega)]
  · intro q0 v c d hd
    rw [(send_message_v_spec 16 q0 v c d (by omega) (by omega)).1]
    rfl
  · intro q0 v c d hd
    rw [send_message_v_too_big 16 q0 v c d (by omega)]
  · intro q0 v c d hd
    rw [(send_message_v_spec 64 q0 v c d (by omega) (by omega)).1]
    rfl
  · intro q0 v c d hd
    rw [send_message_v_too_big 64 q0 v c d (by omega)]

/-- C6 witness: the boundary behaviour at concrete all-zero payloads. -/
theorem send_capacity_boundary_witness :
    ((send_message 16 [] 2 (List.replicate 11 0)).1).isOk = true ∧
    (send_message 16 [] 2 (List.replicate 12 0)).1 = .err .SliceTooBig ∧
    ((send_message 64 [] 2 (List.replicate 59 0)).1).isOk = true ∧
    (send_message 64 [] 2 (List.replicate 60 0)).1 = .err .SliceTooBig ∧
    ((send_message_v 16 [] 1 2 (List.replicate 10 0)).1).isOk = true ∧
    (send_message_v 16 [] 1 2 (List.replicate 11 0)).1 = .err .SliceTooBig ∧
    ((send_message_v 64 [] 1 2 (List.replicate 58 0)).1).isOk = true ∧
    (send_message_v 64 [] 1 2 (List.replicate 59 0)).1 = .err .SliceTooBig :=
  ⟨send_capacity_boundary.1 [] 2 _ (by simp),
    send_capacity_boundary.2.1 [] 2 _ (by simp),
    send_capacity_boundary.2.2.1 [] 2 _ (by simp),
    send_capacity_boundary.2.2.2.1 [] 2 _ (by simp),
    send_capacity_boundary.2.2.2.2.1 [] 1 2 _ (by simp),
    send_capacity_boundary.2.2.2.2.2.1 [] 1 2 _ (by simp),
    send_capacity_boundary.2.2.2.2.2.2.1 [] 1 2 _ (by simp),
    send_capacity_boundary.2.2.2.2.2.2.2 [] 1 2 _ (by simp)⟩

/-- C7 counterexample: `cobs_decode` on the encoding of the one-byte
message `[5]` leaves the buffer `[5, 0]` (message plus comma byte, length
2) but returns 1 — the decoded message length excluding, not including,
the terminator. -/
theorem cobs_decode_return_excludes_comma :
    (cobs_decode [2, 5, 0]).2 = [5, 0] ∧
    (cobs_decode [2, 5, 0]).1 = .ok 1 ∧
    (cobs_decode [2, 5, 0]).1 ≠ .ok (((cobs_decode [2, 5, 0]).2).length) := by
  decide

/-- C7 (amended): on a buffer produced by `cobs_encode` from a nonempty
fitting message, `cobs_decode` walks the offset chain zeroing each visited
position, consumes the overhead byte from the front, leaves the
terminating zero byte in place (the buffer becomes `msg ++ [0]`), and
returns the decoded message length excluding the terminator. -/
theorem cobs_decode_contract (cap : Nat) (msg : Buf) (h1 : 1 ≤ msg.length)
    (h2 : msg.length + 2 ≤ cap) (h3 : cap ≤ 256) :
    (cobs_encode cap msg).1 = .ok (msg.length + 2) ∧
    cobs_decode ((cobs_encode cap msg).2) = (.ok msg.length, msg ++ [0]) := by
  have he := cobs_encode_spec cap msg h1 h2 h3
  rw [he]
  exact ⟨rfl, cobs_decode_spec msg h1⟩

/-- C7 witness: the contract at the concrete message `[1, 0, 2]` in a
16-byte buffer. -/
theorem cobs_decode_contract_witness :
    (cobs_encode 16 [1, 0, 2]).1 = .ok 5 ∧
    cobs_decode ((cobs_encode 16 [1, 0, 2]).2) = (.ok 3, [1, 0, 2, 0]) :=
  cobs_decode_contract 16 [1, 0, 2] (by decide) (by decide) (by decide)

/-- C8: structural postcondition of `cobs_encode` — for every nonempty
message that fits (at most `cap - 2` bytes), encoding succeeds and the
resulting buffer holds no zero byte before its final position, and its
final byte is the single zero terminator. -/
theorem cobs_encode_structure (cap : Nat) (msg : Buf) (h1 : 1 ≤ msg.length)
    (h2 : msg.length + 2 ≤ cap) (h3 : cap ≤ 256) :
    (cobs_encode cap msg).1 = .ok (msg.length + 2) ∧
    ((cobs_encode cap msg).2).dropLast.all (fun x => x != 0) = true ∧
    ((cobs_encode cap msg).2).getLast? = some 0 := by
  have he := cobs_encode_spec cap msg h1 h2 h3
  have hs := cobs_spec_structure (msg ++ [0]) (Or.inr (List.getLast?_concat _))
  rw [he]
  refine ⟨rfl, ?_, hs.2⟩
  rw [List.all_eq_true]
  intro x hx
  have := hs.1 x hx
  simpa using this

/-- C8 witness: the structural postcondition at the concrete message
`[1, 0, 2]` (which contains an interior zero) in a 16-byte buffer. -/
theorem cobs_encode_structure_witness :
    (cobs_encode 16 [1, 0, 2]).1 = .ok 5 ∧
    ((cobs_encode 16 [1, 0, 2]).2).dropLast.all (fun x => x != 0) = true ∧
    ((cobs_encode 16 [1, 0, 2]).2).getLast? = some 0 :=
  cobs_encode_structure 16 [1, 0, 2] (by decide) (by decide) (by decide)

/-- C9 counterexample: `cobs_encode` on a buffer of 15 bytes in a 16-byte
deque returns the capacity error `QueueTooFull`, but only after
`push_front` has already prepended the overhead byte — the buffer is not
what it was before the call. -/
theorem cobs_encode_queue_too_full_mutates :
    (cobs_encode 16 (List.replicate 15 1)).1 = .err .QueueTooFull ∧
    (cobs_encode 16 (List.replicate 15 1)).2 ≠ List.replicate 15 1 := by
  decide

/-- C9 (amended): capacity errors are detected before any mutation for
`send_message`'s `SliceTooBig` (both variants), `receive_message`'s
`SliceTooSmall` (both variants), and `cobs_encode`'s `QueueTooFull` on an
initially full buffer; the one exception is `cobs_encode` on a buffer of
exactly `capacity - 1` bytes, whose `QueueTooFull` is raised only after
`push_front` has mutated the buffer (the counterexample above). -/
theorem capacity_errors_atomic :
    (∀ (cap : Nat) (q0 : Buf) (c : Nat) (d : List Nat), d.length > cap - 5 →
      send_message cap q0 c d = (.err .SliceTooBig, q0)) ∧
    (∀ (cap : Nat) (q0 : Buf) (v c : Nat) (d : List Nat), d.length > cap - 6 →
      send_message_v cap q0 v c d = (.err .SliceTooBig, q0)) ∧
    (∀ (cap : Nat) (q0 : Buf) (c0 : Nat) (d0 : List Nat), d0.length < cap - 5 →
      receive_message cap q0 c0 d0 = ⟨.err .SliceTooSmall, q0, c0, d0⟩) ∧
    (∀ (cap : Nat) (q0 : Buf) (v0 c0 : Nat) (d0 : List Nat),
      d0.length < cap - 4 →
      receive_message_v cap q0 v0 c0 d0 = ⟨.err .SliceTooSmall, q0, v0, c0, d0⟩) ∧
    (∀ (cap : Nat) (q : Buf), q.length ≠ 0 → q.length = cap →
      cobs_encode cap q = (.err .QueueTooFull, q)) :=
  ⟨send_message_too_big, send_message_v_too_big, receive_message_too_small,
    receive_message_v_too_small, cobs_encode_full_err⟩

/-- C9 witness: the atomic error cases at concrete inputs: oversized
payloads on capacity 16, an undersized 3-byte output slice, and a full
16-byte buffer. -/
theorem capacity_errors_atomic_witness :
    send_message 16 [3] 2 (List.replicate 12 0) = (.err .SliceTooBig, [3]) ∧
    send_message_v 16 [3] 1 2 (List.replicate 11 0) = (.err .SliceTooBig, [3]) ∧
    receive_message 16 [9, 9, 9] 5 [0, 0, 0] =
      ⟨.err .SliceTooSmall, [9, 9, 9], 5, [0, 0, 0]⟩ ∧
    receive_message_v 16 [9, 9, 9] 4 5 [0, 0, 0] =
      ⟨.err .SliceTooSmall, [9, 9, 9], 4, 5, [0, 0, 0]⟩ ∧
    cobs_encode 16 (List.replicate 16 1) =
      (.err .QueueTooFull, List.replicate 16 1) :=
  ⟨capacity_errors_atomic.1 16 [3] 2 _ (by simp),
    capacity_errors_atomic.2.1 16 [3] 1 2 _ (by simp),
    capacity_errors_atomic.2.2.1 16 [9, 9, 9] 5 [0, 0, 0] (by simp),
    capacity_errors_atomic.2.2.2.1 16 [9, 9, 9] 4 5 [0, 0, 0] (by simp),
    capacity_errors_atomic.2.2.2.2 16 _ (by simp) (by simp)⟩

/-- C10: for every accepted payload, the unversioned `send_message`
returns exactly `data.length + 5` (command byte, two CRC bytes, COBS
overhead byte and comma byte) and the versioned variant exactly
`data.length + 6` (one more for the version byte); in both cases the
buffer length after the call equals the returned wire length, so COBS
adds exactly two bytes regardless of payload content. -/
theorem send_wire_length :
    (∀ (cap : Nat) (q0 : Buf) (c : Nat) (d : List Nat),
      d.length + 5 ≤ cap → cap ≤ 256 →
      (send_message cap q0 c d).1 = .ok (d.length + 5) ∧
      (send_message cap q0 c d).2.length = d.length + 5) ∧
    (∀ (cap : Nat) (q0 : Buf) (v c : Nat) (d : List Nat),
      d.length + 6 ≤ cap → cap ≤ 256 →
      (send_message_v cap q0 v c d).1 = .ok (d.length + 6) ∧
      (send_message_v cap q0 v c d).2.length = d.length + 6) :=
  ⟨send_message_spec, send_message_v_spec⟩

/-- C10 witness: the wire lengths at the concrete payload `[1, 2, 3]` on
capacity 16: 8 bytes unversioned, 9 bytes versioned. -/
theorem send_wire_length_witness :
    ((send_message 16 [] 7 [1, 2, 3]).1 = .ok 8 ∧
      (send_message 16 [] 7 [1, 2, 3]).2.length = 8) ∧
    ((send_message_v 16 [] 7 9 [1, 2, 3]).1 = .ok 9 ∧
      (send_message_v 16 [] 7 9 [1, 2, 3]).2.length = 9) :=
  ⟨send_wire_length.1 16 [] 7 [1, 2, 3] (by simp) (by simp),
    send_wire_length.2 16 [] 7 9 [1, 2, 3] (by simp) (by simp)⟩
